import Mathlib

/-!
Verification of the makr channel-detection core.

This file gives a shallow embedding, in Lean 4, of the algorithmic core of
the makr repository and proves the specification claims about it:

* `src/makr/core/channel.py` — text normalizer and `ChannelSegmentRecorder`
  (simple variant): streaming anchor-based token capture.
* `src/makr/ui/windows/test_window.py` — channel registry / deduplicator
  (`TestWindow.add_record`) and `src/makr/ui/app.py`
  (`MakrApp._handle_captured_pattern`).
* `src/makr/controllers/channel_detection.py` — `ChannelDetectionSequence`
  worker loop, queue and start/stop interface.
* `src/makr/controllers/macro_controller.py` — `MacroController.run_step`,
  `_run_step_one` and `EntryCoordinateProvider.get_point`.

Strings are modelled as `List Char`; Python regular expressions are
modelled by explicit character-class and scanning functions; wall-clock
timestamps are modelled as rationals; thread interleavings are modelled by
explicit environment scripts.
-/

namespace Makr

/-! ## Character classes

`re.sub(r"[^A-Za-z0-9가-힣]", "-", text)` keeps ASCII letters, ASCII digits
and Hangul syllables (U+AC00 – U+D7A3) and replaces everything else by a
hyphen.  `\d` patterns are applied by the program only to normalized text,
where the sole digits are ASCII, so `\d` is modelled as an ASCII digit.
-/

def isUpperAZ (c : Char) : Bool := 'A' ≤ c && c ≤ 'Z'

def isLowerAZ (c : Char) : Bool := 'a' ≤ c && c ≤ 'z'

def isDigit09 (c : Char) : Bool := '0' ≤ c && c ≤ '9'

def isHangul (c : Char) : Bool := '가' ≤ c && c ≤ '힣'

def isKept (c : Char) : Bool := isUpperAZ c || isLowerAZ c || isDigit09 c || isHangul c

/-- `ChannelSegmentRecorder._normalize`: replace every character that is not
an ASCII letter, ASCII digit or Hangul syllable by `'-'`. -/
def normalize (s : List Char) : List Char :=
  s.map (fun c => if isKept c then c else '-')

theorem normalize_append (a b : List Char) :
    normalize (a ++ b) = normalize a ++ normalize b :=
  List.map_append _ a b

theorem normalize_length (s : List Char) : (normalize s).length = s.length :=
  List.length_map _ _

/-! ## Substring search (`str.find`) -/

/-- `leads a b` holds when `a` is an initial segment of `b`. -/
def leads : List Char → List Char → Bool
  | [], _ => true
  | _ :: _, [] => false
  | a :: as, b :: bs => a = b && leads as bs

theorem leads_iff (a b : List Char) : leads a b = true ↔ ∃ t, b = a ++ t := by
  induction a generalizing b with
  | nil => simp [leads]
  | cons x xs ih =>
    cases b with
    | nil => simp [leads]
    | cons y ys =>
      simp only [leads, Bool.and_eq_true, decide_eq_true_eq, ih, List.cons_append,
        List.cons.injEq]
      constructor
      · rintro ⟨rfl, t, rfl⟩; exact ⟨t, rfl, rfl⟩
      · rintro ⟨t, rfl, rfl⟩; exact ⟨rfl, t, rfl⟩

theorem leads_length {a b : List Char} (h : leads a b = true) : a.length ≤ b.length := by
  rcases (leads_iff a b).1 h with ⟨t, rfl⟩
  simp

theorem leads_append_right {a b : List Char} (c : List Char) (h : leads a b = true) :
    leads a (b ++ c) = true := by
  rcases (leads_iff a b).1 h with ⟨t, rfl⟩
  exact (leads_iff _ _).2 ⟨t ++ c, by simp⟩

theorem leads_of_append_le {a b c : List Char} (h : leads a (b ++ c) = true)
    (hl : a.length ≤ b.length) : leads a b = true := by
  rcases (leads_iff a (b ++ c)).1 h with ⟨t, ht⟩
  refine (leads_iff a b).2 ⟨b.drop a.length, ?_⟩
  have h1 : (b ++ c).take a.length = a := by
    rw [ht]; exact List.take_left' rfl
  have h2 : (b ++ c).take a.length = b.take a.length := List.take_append_of_le_length hl
  calc b = b.take a.length ++ b.drop a.length := (List.take_append_drop _ _).symm
    _ = a ++ b.drop a.length := by rw [← h2, h1]

theorem leads_take {a b : List Char} (h : leads a b = true) : b.take a.length = a := by
  rcases (leads_iff a b).1 h with ⟨t, rfl⟩
  exact List.take_left' rfl

/-- `str.find(needle)`: index of the first occurrence of `needle`, if any. -/
def firstOccur (needle : List Char) : List Char → Option Nat
  | [] => if leads needle [] then some 0 else none
  | c :: rest =>
    if leads needle (c :: rest) then some 0
    else (firstOccur needle rest).map (· + 1)

theorem firstOccur_none {needle l : List Char} (h : firstOccur needle l = none) :
    ∀ j, leads needle (l.drop j) = false := by
  induction l with
  | nil =>
    intro j
    simp only [firstOccur] at h
    split at h
    · exact absurd h (by simp)
    · simpa [List.drop_nil] using Bool.of_not_eq_true (by simp_all)
  | cons c rest ih =>
    intro j
    simp only [firstOccur] at h
    split at h
    · exact absurd h (by simp)
    · cases j with
      | zero => simpa using Bool.of_not_eq_true (by simp_all)
      | succ j =>
        have : firstOccur needle rest = none := by
          cases hr : firstOccur needle rest with
          | none => rfl
          | some i => rw [hr] at h; simp at h
        simpa using ih this j

theorem firstOccur_some {needle l : List Char} {i : Nat}
    (h : firstOccur needle l = some i) :
    leads needle (l.drop i) = true ∧ ∀ j, j < i → leads needle (l.drop j) = false := by
  induction l generalizing i with
  | nil =>
    simp only [firstOccur] at h
    split at h
    · cases h
      exact ⟨by simp_all, by omega⟩
    · cases h
  | cons c rest ih =>
    simp only [firstOccur] at h
    split at h
    · cases h
      exact ⟨by simpa using ‹leads needle (c :: rest) = true›, by omega⟩
    · cases hr : firstOccur needle rest with
      | none => rw [hr] at h; cases h
      | some k =>
        rw [hr] at h
        simp only [Option.map_some'] at h
        cases h
        obtain ⟨h1, h2⟩ := ih hr
        refine ⟨by simpa using h1, ?_⟩
        intro j hj
        cases j with
        | zero => simpa using Bool.of_not_eq_true (by simp_all)
        | succ j => simpa using h2 j (by omega)

theorem firstOccur_eq_some {needle l : List Char} {i : Nat}
    (h1 : leads needle (l.drop i) = true)
    (h2 : ∀ j, j < i → leads needle (l.drop j) = false) :
    firstOccur needle l = some i := by
  induction l generalizing i with
  | nil =>
    have : i = 0 := by
      by_contra hne
      have := h2 0 (by omega)
      simp only [List.drop_nil] at h1 this
      rw [h1] at this; cases this
    subst this
    simp only [List.drop_nil] at h1
    simp [firstOccur, h1]
  | cons c rest ih =>
    cases i with
    | zero =>
      simp only [List.drop] at h1
      simp [firstOccur, h1]
    | succ i =>
      have h0 : leads needle (c :: rest) = false := by simpa using h2 0 (by omega)
      have hrec : firstOccur needle rest = some i := by
        refine ih (by simpa using h1) ?_
        intro j hj
        simpa using h2 (j + 1) (by omega)
      simp [firstOccur, h0, hrec]

theorem firstOccur_some_length {needle l : List Char} {i : Nat} (hne : needle ≠ [])
    (h : firstOccur needle l = some i) : i + needle.length ≤ l.length := by
  have h1 := (firstOccur_some h).1
  have := leads_length h1
  simp only [List.length_drop] at this
  have h2 : i ≤ l.length := by
    by_contra hc
    push_neg at hc
    rw [List.drop_eq_nil_of_le (by omega)] at h1
    cases needle with
    | nil => exact absurd rfl hne
    | cons x xs => simp [leads] at h1
  omega

/-! ## The value pattern `[A-Z]-[가-힣]\d{2,3}-`

`patMatchLen l` is the length of the (greedy, Python `re` semantics) match
of the pattern at the start of `l`: `some 7` for three digits, `some 6` for
two digits, `none` otherwise.  With three digits present, `re` first tries
`\d{2,3}` at three digits and, failing the final `-`, backtracks to two
digits — but the third character is a digit, not `-`, so the whole position
fails; this is reflected below. -/

/-- Character test on the `i`-th character of the remaining text. -/
def patAt (l : List Char) (i : Nat) (p : Char → Bool) : Bool :=
  match l[i]? with
  | some c => p c
  | none => false

/-- The mandatory pattern head `[A-Z]-[가-힣]\\d\\d` of the value pattern. -/
def pat5 (l : List Char) : Bool :=
  patAt l 0 isUpperAZ && patAt l 1 (· == '-') && patAt l 2 isHangul &&
    patAt l 3 isDigit09 && patAt l 4 isDigit09

/-- Greedy three-digit alternative: `[A-Z]-[가-힣]\\d\\d\\d-`. -/
def pat7 (l : List Char) : Bool := pat5 l && patAt l 5 isDigit09 && patAt l 6 (· == '-')

/-- Two-digit alternative `[A-Z]-[가-힣]\\d\\d-` (after three digits failed, the
sixth character must itself be the closing hyphen, hence not a digit). -/
def pat6 (l : List Char) : Bool := pat5 l && patAt l 5 (· == '-')

def patMatchLen (l : List Char) : Option Nat :=
  if pat7 l then some 7 else if pat6 l then some 6 else none

theorem patAt_true_lt {l : List Char} {i : Nat} {p : Char → Bool}
    (h : patAt l i p = true) : i < l.length := by
  unfold patAt at h
  cases hg : l[i]? with
  | none => rw [hg] at h; cases h
  | some c =>
    obtain ⟨hlt, -⟩ := List.getElem?_eq_some_iff.1 hg
    exact hlt

theorem patAt_append {l : List Char} (y : List Char) {i : Nat} (p : Char → Bool)
    (h : i < l.length) : patAt (l ++ y) i p = patAt l i p := by
  unfold patAt
  rw [List.getElem?_append_left h]

theorem pat5_append {l : List Char} (y : List Char) (h : 5 ≤ l.length) :
    pat5 (l ++ y) = pat5 l := by
  unfold pat5
  rw [patAt_append y _ (by omega), patAt_append y _ (by omega), patAt_append y _ (by omega),
    patAt_append y _ (by omega), patAt_append y _ (by omega)]

theorem pat7_append {l : List Char} (y : List Char) (h : 7 ≤ l.length) :
    pat7 (l ++ y) = pat7 l := by
  unfold pat7
  rw [pat5_append y (by omega), patAt_append y _ (by omega), patAt_append y _ (by omega)]

theorem pat6_append {l : List Char} (y : List Char) (h : 6 ≤ l.length) :
    pat6 (l ++ y) = pat6 l := by
  unfold pat6
  rw [pat5_append y (by omega), patAt_append y _ (by omega)]

theorem pat7_length {l : List Char} (h : pat7 l = true) : 7 ≤ l.length := by
  have h6 : patAt l 6 (· == '-') = true := by
    simp only [pat7, Bool.and_eq_true] at h
    exact h.2
  have := patAt_true_lt h6
  omega

theorem pat6_length {l : List Char} (h : pat6 l = true) : 6 ≤ l.length := by
  have h5 : patAt l 5 (· == '-') = true := by
    simp only [pat6, Bool.and_eq_true] at h
    exact h.2
  have := patAt_true_lt h5
  omega

/-- A two-digit match excludes the three-digit match, even after appending:
the sixth character is the closing hyphen, not a digit. -/
theorem pat6_not_pat7_append {l : List Char} (y : List Char) (h : pat6 l = true) :
    pat7 (l ++ y) = false := by
  have h5 : patAt l 5 (· == '-') = true := by
    simp only [pat6, Bool.and_eq_true] at h
    exact h.2
  have hlt : 5 < l.length := patAt_true_lt h5
  have hdig : patAt l 5 isDigit09 = false := by
    unfold patAt at h5 ⊢
    cases hg : l[5]? with
    | none => rfl
    | some c =>
      rw [hg] at h5
      have : c = '-' := by simpa using h5
      subst this
      decide
  have hd : patAt (l ++ y) 5 isDigit09 = false := by
    rw [patAt_append y _ hlt, hdig]
  simp [pat7, hd]

theorem patMatchLen_bounds {l : List Char} {n : Nat} (h : patMatchLen l = some n) :
    6 ≤ n ∧ n ≤ l.length := by
  unfold patMatchLen at h
  split_ifs at h with h7 h6
  · cases h
    exact ⟨by omega, pat7_length h7⟩
  · cases h
    exact ⟨by omega, pat6_length h6⟩

/-- The pattern match is decided by the first seven characters, so a
successful match survives appending more text on the right. -/
theorem patMatchLen_append_some {l : List Char} {n : Nat} (y : List Char)
    (h : patMatchLen l = some n) : patMatchLen (l ++ y) = some n := by
  unfold patMatchLen at h ⊢
  split_ifs at h with h7 h6
  · cases h
    rw [pat7_append y (pat7_length h7), if_pos h7]
  · cases h
    rw [pat6_not_pat7_append y h6, pat6_append y (pat6_length h6)]
    simp [h6]

/-- A failed pattern match at a position with at least seven characters
remaining stays failed when more text is appended. -/
theorem patMatchLen_append_none {l : List Char} (y : List Char) (hlen : 7 ≤ l.length)
    (h : patMatchLen l = none) : patMatchLen (l ++ y) = none := by
  unfold patMatchLen at h ⊢
  rw [pat7_append y hlen, pat6_append y (by omega)]
  exact h

/-- `re.search` restricted to matches starting at the head: position and end
of the leftmost match of the value pattern. -/
def patSearch : List Char → Option (Nat × Nat)
  | [] => none
  | c :: rest =>
    match patMatchLen (c :: rest) with
    | some n => some (0, n)
    | none => (patSearch rest).map (fun p => (p.1 + 1, p.2 + 1))

theorem patSearch_some {l : List Char} {s e : Nat} (h : patSearch l = some (s, e)) :
    patMatchLen (l.drop s) = some (e - s) ∧ s + 6 ≤ e ∧ e ≤ l.length ∧
      ∀ p, p < s → patMatchLen (l.drop p) = none := by
  induction l generalizing s e with
  | nil => cases h
  | cons c rest ih =>
    simp only [patSearch] at h
    cases hm : patMatchLen (c :: rest) with
    | some n =>
      rw [hm] at h
      cases h
      obtain ⟨h6, hle⟩ := patMatchLen_bounds hm
      exact ⟨by simpa using hm, by omega, by simpa using hle, by omega⟩
    | none =>
      rw [hm] at h
      cases hr : patSearch rest with
      | none => rw [hr] at h; cases h
      | some p =>
        rw [hr] at h
        simp only [Option.map_some'] at h
        cases h
        obtain ⟨h1, h2, h3, h4⟩ := ih (s := p.1) (e := p.2) (by rw [hr])
        refine ⟨by simpa using h1, by omega, by simp; omega, ?_⟩
        intro q hq
        cases q with
        | zero => simpa using hm
        | succ q => simpa using h4 q (by omega)

theorem patSearch_eq_some {l : List Char} {s e : Nat}
    (h1 : patMatchLen (l.drop s) = some (e - s)) (hse : s ≤ e)
    (h2 : ∀ p, p < s → patMatchLen (l.drop p) = none) :
    patSearch l = some (s, e) := by
  induction l generalizing s e with
  | nil =>
    exfalso
    rw [List.drop_nil] at h1
    cases h1
  | cons c rest ih =>
    cases s with
    | zero =>
      simp only [List.drop] at h1
      have : e - 0 = e := by omega
      rw [this] at h1
      simp [patSearch, h1]
    | succ s =>
      have h0 : patMatchLen (c :: rest) = none := by simpa using h2 0 (by omega)
      have hse' : s ≤ e - 1 := by omega
      have h1' : patMatchLen (rest.drop s) = some ((e - 1) - s) := by
        have : (e - 1) - s = e - (s + 1) := by omega
        rw [this]
        simpa using h1
      have hrec : patSearch rest = some (s, e - 1) := by
        refine ih h1' hse' ?_
        intro p hp
        simpa using h2 (p + 1) (by omega)
      have he : 1 ≤ e := by omega
      simp [patSearch, h0, hrec]
      omega

theorem patSearch_none {l : List Char} (h : patSearch l = none) :
    ∀ p, patMatchLen (l.drop p) = none := by
  induction l with
  | nil => intro p; simp only [List.drop_nil]; decide
  | cons c rest ih =>
    intro p
    simp only [patSearch] at h
    cases hm : patMatchLen (c :: rest) with
    | some n => rw [hm] at h; cases h
    | none =>
      rw [hm] at h
      have hr : patSearch rest = none := by
        cases hr : patSearch rest with
        | none => rfl
        | some q => rw [hr] at h; simp at h
      cases p with
      | zero => simpa using hm
      | succ p => simpa using ih hr p

/-- A successful leftmost search is unchanged by appending on the right. -/
theorem patSearch_append_some {l : List Char} {s e : Nat} (y : List Char)
    (h : patSearch l = some (s, e)) : patSearch (l ++ y) = some (s, e) := by
  obtain ⟨h1, h2, h3, h4⟩ := patSearch_some h
  have hm : patMatchLen ((l ++ y).drop s) = some (e - s) := by
    rw [List.drop_append_of_le_length (by omega)]
    exact patMatchLen_append_some y h1
  refine patSearch_eq_some hm (by omega) ?_
  intro p hp
  rw [List.drop_append_of_le_length (by omega)]
  refine patMatchLen_append_none y ?_ (h4 p hp)
  have h6 := (patMatchLen_bounds h1).2
  simp only [List.length_drop] at h6 ⊢
  omega

/-- `re.search(..., pos=pos)`: leftmost match starting at or after `pos`,
with absolute start/end positions. -/
def patSearchFrom (l : List Char) (pos : Nat) : Option (Nat × Nat) :=
  (patSearch (l.drop pos)).map (fun p => (pos + p.1, pos + p.2))

theorem patSearchFrom_some {l : List Char} {pos s e : Nat}
    (h : patSearchFrom l pos = some (s, e)) :
    pos ≤ s ∧ s + 6 ≤ e ∧ e ≤ l.length ∧
      patSearch (l.drop pos) = some (s - pos, e - pos) := by
  simp only [patSearchFrom] at h
  cases hp : patSearch (l.drop pos) with
  | none => rw [hp] at h; cases h
  | some q =>
    rw [hp] at h
    simp only [Option.map_some'] at h
    cases h
    obtain ⟨h1, h2, h3, h4⟩ := patSearch_some (s := q.1) (e := q.2) (by rw [hp])
    simp only [List.length_drop] at h3
    have hq : pos ≤ l.length := by
      by_contra hc
      push_neg at hc
      rw [List.drop_eq_nil_of_le (by omega)] at hp
      cases hp
    refine ⟨by omega, by omega, by omega, ?_⟩
    have e1 : pos + q.1 - pos = q.1 := by omega
    have e2 : pos + q.2 - pos = q.2 := by omega
    rw [e1, e2, ← hp]

/-! ## `ChannelSegmentRecorder` (simple variant)

The recorder keeps a buffer; `feed` appends the normalized chunk and runs
`_process_buffer`, which repeatedly: finds the anchor keyword (trimming the
buffer to its last `len(anchor)` characters if absent), searches for the
value pattern after the anchor (trimming the buffer to start at the anchor
if absent), and otherwise strips hyphens from the match, emits it, and
drops the buffer past the match.  The `on_capture` callback is modelled by
returning the list of captured tokens; the `on_channel_activity` timestamp
callback has no influence on buffer or captures and is not modelled. -/

def anchorL : List Char := "ChannelName".toList

/-- `match.group(0).replace("-", "")`. -/
def stripHyphens (l : List Char) : List Char := l.filter (fun c => c != '-')

/-- One fuel-indexed pass of `_process_buffer`; the fuel only serves
termination and is irrelevant once it exceeds the buffer length. -/
def pbGo : Nat → List Char → List (List Char) × List Char
  | 0, buf => ([], buf)
  | fuel + 1, buf =>
    match firstOccur anchorL buf with
    | none => ([], buf.drop (buf.length - anchorL.length))
    | some i =>
      match patSearchFrom buf (i + anchorL.length) with
      | none => ([], buf.drop i)
      | some se =>
        let tok := stripHyphens ((buf.drop se.1).take (se.2 - se.1))
        let rest := pbGo fuel (buf.drop se.2)
        (tok :: rest.1, rest.2)

/-- `ChannelSegmentRecorder._process_buffer`, returning the emitted captures
and the final buffer. -/
def processBuffer (buf : List Char) : List (List Char) × List Char :=
  pbGo (buf.length + 1) buf

theorem anchorL_ne_nil : anchorL ≠ [] := by decide

theorem anchorL_length : anchorL.length = 11 := by decide

/-- In the capture branch the buffer strictly shrinks. -/
theorem pb_shrink {buf : List Char} {i : Nat} {se : Nat × Nat}
    (h1 : firstOccur anchorL buf = some i)
    (h2 : patSearchFrom buf (i + anchorL.length) = some se) :
    (buf.drop se.2).length < buf.length := by
  obtain ⟨hp1, hp2, hp3, -⟩ := patSearchFrom_some (s := se.1) (e := se.2) (by rw [h2])
  have hb := firstOccur_some_length anchorL_ne_nil h1
  have hA : anchorL.length = 11 := anchorL_length
  simp only [List.length_drop]
  omega

theorem pbGo_stable {fuel : Nat} {buf : List Char} (h : buf.length < fuel) :
    pbGo fuel buf = processBuffer buf := by
  induction fuel using Nat.strong_induction_on generalizing buf with
  | _ fuel ih =>
    cases fuel with
    | zero => omega
    | succ fuel =>
      unfold processBuffer
      rw [pbGo, pbGo]
      cases h1 : firstOccur anchorL buf with
      | none => simp only [h1]
      | some i =>
        simp only [h1]
        cases h2 : patSearchFrom buf (i + anchorL.length) with
        | none => simp only [h2]
        | some se =>
          simp only [h2]
          have hs := pb_shrink h1 h2
          have e1 : pbGo fuel (buf.drop se.2) = processBuffer (buf.drop se.2) :=
            ih fuel (by omega) (by omega)
          have e2 : pbGo buf.length (buf.drop se.2) = processBuffer (buf.drop se.2) :=
            ih buf.length (by omega) (by omega)
          rw [e1, e2]

theorem processBuffer_none {buf : List Char} (h : firstOccur anchorL buf = none) :
    processBuffer buf = ([], buf.drop (buf.length - anchorL.length)) := by
  unfold processBuffer
  rw [pbGo]
  simp only [h]

theorem processBuffer_noPat {buf : List Char} {i : Nat}
    (h1 : firstOccur anchorL buf = some i)
    (h2 : patSearchFrom buf (i + anchorL.length) = none) :
    processBuffer buf = ([], buf.drop i) := by
  unfold processBuffer
  rw [pbGo]
  simp only [h1, h2]

theorem processBuffer_cap {buf : List Char} {i : Nat} {se : Nat × Nat}
    (h1 : firstOccur anchorL buf = some i)
    (h2 : patSearchFrom buf (i + anchorL.length) = some se) :
    processBuffer buf =
      (stripHyphens ((buf.drop se.1).take (se.2 - se.1)) ::
        (processBuffer (buf.drop se.2)).1, (processBuffer (buf.drop se.2)).2) := by
  conv_lhs => unfold processBuffer; rw [pbGo]
  simp only [h1, h2]
  have hs := pb_shrink h1 h2
  rw [pbGo_stable (by omega)]

/-- `ChannelSegmentRecorder.feed`: normalize, append, process; an empty
normalized chunk returns immediately without touching the buffer. -/
def feedRec (buf text : List Char) : List (List Char) × List Char :=
  let n := normalize text
  if n = [] then ([], buf) else processBuffer (buf ++ n)

/-- A whole sequence of `feed` calls from a given buffer, collecting all
captures in order. -/
def feedAll (buf : List Char) : List (List Char) → List (List Char) × List Char
  | [] => ([], buf)
  | t :: ts =>
    let r1 := feedRec buf t
    let r2 := feedAll r1.2 ts
    (r1.1 ++ r2.1, r2.2)

/-! ## Chunk-boundary independence of the recorder

`_process_buffer` only ever looks at the buffer from its first anchor
occurrence onwards, and trims conservatively, so processing is insensitive
to how the stream was chunked.  `pb_drop` states that dropping a prefix
that provably contains no anchor start does not change the result;
`pb_append` is the compositionality law reducing many `feed` calls to one.
-/

theorem firstOccur_eq_none {needle l : List Char}
    (h : ∀ j, leads needle (l.drop j) = false) : firstOccur needle l = none := by
  cases hfo : firstOccur needle l with
  | none => rfl
  | some i =>
    have := (firstOccur_some hfo).1
    rw [h i] at this
    cases this

theorem pb_drop {l : List Char} {d : Nat}
    (hd : d = 0 ∨ d + anchorL.length ≤ l.length)
    (hq : ∀ q, leads anchorL (l.drop q) = true → d ≤ q) :
    processBuffer (l.drop d) = processBuffer l := by
  cases hocc : firstOccur anchorL l with
  | none =>
    have hocc' : firstOccur anchorL (l.drop d) = none := by
      apply firstOccur_eq_none
      intro j
      rw [List.drop_drop]
      exact firstOccur_none hocc (d + j)
    rw [processBuffer_none hocc, processBuffer_none hocc']
    rw [List.length_drop, List.drop_drop]
    have : d + (l.length - d - anchorL.length) = l.length - anchorL.length := by
      rcases hd with h0 | hle
      · omega
      · omega
    rw [this]
  | some p =>
    obtain ⟨hp1, hp2⟩ := firstOccur_some hocc
    have hdp : d ≤ p := hq p hp1
    have hplen := firstOccur_some_length anchorL_ne_nil hocc
    have hocc' : firstOccur anchorL (l.drop d) = some (p - d) := by
      apply firstOccur_eq_some
      · rw [List.drop_drop]
        have e : d + (p - d) = p := by omega
        rw [e]
        exact hp1
      · intro j hj
        rw [List.drop_drop]
        exact hp2 (d + j) (by omega)
    have edrop : ∀ m : Nat, (l.drop d).drop ((p - d) + m) = l.drop (p + m) := by
      intro m
      rw [List.drop_drop]
      congr 1
      omega
    cases hps : patSearchFrom l (p + anchorL.length) with
    | none =>
      have hnone : patSearch (l.drop (p + anchorL.length)) = none := by
        unfold patSearchFrom at hps
        exact (Option.map_eq_none').1 hps
      have hps' : patSearchFrom (l.drop d) ((p - d) + anchorL.length) = none := by
        unfold patSearchFrom
        rw [edrop, hnone]
        rfl
      rw [processBuffer_noPat hocc hps, processBuffer_noPat hocc' hps', List.drop_drop]
      congr 2
      omega
    | some se =>
      obtain ⟨hs1, hs2, hs3, hs4⟩ := patSearchFrom_some (s := se.1) (e := se.2)
        (by rw [hps])
      have hps' : patSearchFrom (l.drop d) ((p - d) + anchorL.length) =
          some (se.1 - d, se.2 - d) := by
        unfold patSearchFrom
        rw [edrop, hs4]
        simp only [Option.map_some']
        have e1 : p - d + anchorL.length + (se.1 - (p + anchorL.length)) = se.1 - d := by
          omega
        have e2 : p - d + anchorL.length + (se.2 - (p + anchorL.length)) = se.2 - d := by
          omega
        rw [e1, e2]
      rw [processBuffer_cap hocc hps, processBuffer_cap hocc' hps']
      have e1 : (l.drop d).drop (se.1 - d) = l.drop se.1 := by
        rw [List.drop_drop]; congr 1; omega
      have e2 : (l.drop d).drop (se.2 - d) = l.drop se.2 := by
        rw [List.drop_drop]; congr 1; omega
      have e3 : (se.2 - d) - (se.1 - d) = se.2 - se.1 := by omega
      rw [e1, e2, e3]

theorem pb_append_aux :
    ∀ (N : Nat) (x y : List Char), x.length ≤ N →
      processBuffer (x ++ y) =
        ((processBuffer x).1 ++ (processBuffer ((processBuffer x).2 ++ y)).1,
          (processBuffer ((processBuffer x).2 ++ y)).2) := by
  intro N
  induction N with
  | zero =>
    intro x y hx
    have : x = [] := List.eq_nil_of_length_eq_zero (by omega)
    subst this
    have h0 : processBuffer ([] : List Char) = ([], []) := by decide
    simp [h0]
  | succ N ih =>
    intro x y hx
    cases hocc : firstOccur anchorL x with
    | none =>
      rw [processBuffer_none hocc]
      simp only [List.nil_append]
      rcases le_or_lt x.length anchorL.length with hle | hgt
      · have e : x.length - anchorL.length = 0 := by omega
        rw [e, List.drop_zero]
      · have hxlen : x.length - anchorL.length ≤ x.length := by omega
        rw [← List.drop_append_of_le_length hxlen]
        rw [pb_drop (d := x.length - anchorL.length)]
        · right
          rw [List.length_append]
          omega
        · intro q hlead
          by_contra hqlt
          push_neg at hqlt
          have hqx : q ≤ x.length := by omega
          rw [List.drop_append_of_le_length hqx] at hlead
          have : leads anchorL (x.drop q) = true := by
            refine leads_of_append_le hlead ?_
            rw [List.length_drop, anchorL_length] at *
            omega
          rw [firstOccur_none hocc q] at this
          cases this
    | some i =>
      obtain ⟨hi1, hi2⟩ := firstOccur_some hocc
      have hilen := firstOccur_some_length anchorL_ne_nil hocc
      have hix : i ≤ x.length := by omega
      have hoccXY : firstOccur anchorL (x ++ y) = some i := by
        apply firstOccur_eq_some
        · rw [List.drop_append_of_le_length hix]
          exact leads_append_right y hi1
        · intro j hj
          by_contra hc
          have hlead : leads anchorL ((x ++ y).drop j) = true :=
            Bool.of_not_eq_false hc
          rw [List.drop_append_of_le_length (by omega)] at hlead
          have : leads anchorL (x.drop j) = true := by
            refine leads_of_append_le hlead ?_
            rw [List.length_drop, anchorL_length] at *
            omega
          rw [hi2 j hj] at this
          cases this
      have edropA : (x ++ y).drop (i + anchorL.length) =
          x.drop (i + anchorL.length) ++ y :=
        List.drop_append_of_le_length (by omega)
      cases hps : patSearchFrom x (i + anchorL.length) with
      | none =>
        rw [processBuffer_noPat hocc hps]
        simp only [List.nil_append]
        rw [← List.drop_append_of_le_length hix]
        rw [pb_drop (d := i)]
        · right
          rw [List.length_append]
          omega
        · intro q hlead
          by_contra hqlt
          push_neg at hqlt
          have := (firstOccur_some hoccXY).2 q (by omega)
          rw [this] at hlead
          cases hlead
      | some se =>
        obtain ⟨hs1, hs2, hs3, hs4⟩ := patSearchFrom_some (s := se.1) (e := se.2)
          (by rw [hps])
        have hpsXY : patSearchFrom (x ++ y) (i + anchorL.length) = some se := by
          unfold patSearchFrom
          rw [edropA, patSearch_append_some y hs4]
          simp only [Option.map_some']
          have e1 : i + anchorL.length + (se.1 - (i + anchorL.length)) = se.1 := by omega
          have e2 : i + anchorL.length + (se.2 - (i + anchorL.length)) = se.2 := by omega
          rw [e1, e2]
        rw [processBuffer_cap hocc hps, processBuffer_cap hoccXY hpsXY]
        have etok : ((x ++ y).drop se.1).take (se.2 - se.1) =
            (x.drop se.1).take (se.2 - se.1) := by
          rw [List.drop_append_of_le_length (by omega),
            List.take_append_of_le_length (by rw [List.length_drop]; omega)]
        have edropE : (x ++ y).drop se.2 = x.drop se.2 ++ y :=
          List.drop_append_of_le_length (by omega)
        rw [etok, edropE]
        have hrec := ih (x.drop se.2) y (by rw [List.length_drop]; omega)
        rw [hrec]
        simp

theorem pb_append (x y : List Char) :
    processBuffer (x ++ y) =
      ((processBuffer x).1 ++ (processBuffer ((processBuffer x).2 ++ y)).1,
        (processBuffer ((processBuffer x).2 ++ y)).2) :=
  pb_append_aux x.length x y (Nat.le_refl _)

theorem normalize_ne_nil {s : List Char} (h : s ≠ []) : normalize s ≠ [] := by
  intro hc
  apply h
  have := normalize_length s
  rw [hc] at this
  exact List.eq_nil_of_length_eq_zero (by simp at this; omega)

/-- Feeding the chunks one by one is the same as feeding their
concatenation in a single call. -/
theorem feedAll_flatten (chunks : List (List Char)) :
    ∀ buf, feedAll buf chunks = feedRec buf chunks.flatten := by
  induction chunks with
  | nil =>
    intro buf
    simp [feedAll, feedRec, normalize]
  | cons s ts ih =>
    intro buf
    simp only [feedAll, List.flatten_cons]
    rw [ih]
    by_cases hs : s = []
    · subst hs
      simp [feedRec, normalize]
    · by_cases hf : ts.flatten = []
      · rw [hf]
        simp only [List.append_nil]
        simp [feedRec, normalize]
      · have hns := normalize_ne_nil hs
        have hnf := normalize_ne_nil hf
        have hnsf : normalize s ++ normalize ts.flatten ≠ [] := by
          simp [hns]
        simp only [feedRec, normalize_append, if_neg hns, if_neg hnf, if_neg hnsf]
        rw [← List.append_assoc]
        exact (pb_append (buf ++ normalize s) (normalize ts.flatten)).symm

/-! ## The concrete capture scenario of claim C1 -/

/-- `"ChannelName" + "A-가12-" + "ChannelName" + "B-나345-"`. -/
def sampleText : List Char := "ChannelNameA-가12-ChannelNameB-나345-".toList

def tokA : List Char := "A가12".toList

def tokB : List Char := "B나345".toList

/-- The anchor keyword has no nontrivial border: no proper suffix of it is
also a prefix.  This rules out anchor occurrences straddling the boundary
between anchor-free noise and the anchor itself. -/
theorem anchor_no_border :
    ∀ k, k < anchorL.length → k = 0 ∨ anchorL.drop k ≠ anchorL.take (anchorL.length - k) := by
  decide

/-- Prepending anchor-free noise to text that starts with the anchor puts
the first anchor occurrence exactly at the end of the noise. -/
theorem firstOccur_append_anchor {nn rest : List Char}
    (hnn : firstOccur anchorL nn = none) (hrest : leads anchorL rest = true) :
    firstOccur anchorL (nn ++ rest) = some nn.length := by
  apply firstOccur_eq_some
  · rw [List.drop_left]
    exact hrest
  · intro j hj
    by_contra hc
    have hlead : leads anchorL ((nn ++ rest).drop j) = true := Bool.of_not_eq_false hc
    rw [List.drop_append_of_le_length (by omega)] at hlead
    set k := nn.length - j with hk
    have hklen : (nn.drop j).length = k := by rw [List.length_drop]
    rcases le_or_lt anchorL.length k with hbig | hsmall
    · have : leads anchorL (nn.drop j) = true := by
        refine leads_of_append_le hlead ?_
        omega
      rw [firstOccur_none hnn j] at this
      cases this
    · -- the occurrence straddles the boundary: extract a border of the anchor
      have htake : (nn.drop j ++ rest).take anchorL.length = anchorL := leads_take hlead
      have htake2 : (nn.drop j ++ rest).take anchorL.length =
          nn.drop j ++ rest.take (anchorL.length - k) := by
        rw [List.take_append_eq_append_take, hklen,
          List.take_of_length_le (by omega : (nn.drop j).length ≤ anchorL.length)]
      have hanchor : anchorL = nn.drop j ++ rest.take (anchorL.length - k) :=
        htake.symm.trans htake2
      obtain ⟨t, hrt⟩ := (leads_iff _ _).1 hrest
      have htr : rest.take (anchorL.length - k) = anchorL.take (anchorL.length - k) := by
        rw [hrt]
        exact List.take_append_of_le_length (by omega)
      have hdropk : anchorL.drop k = anchorL.take (anchorL.length - k) := by
        conv_lhs => rw [hanchor]
        rw [List.drop_left' hklen, htr]
      have hk0 : k ≠ 0 := by omega
      rcases anchor_no_border k hsmall with h0 | hne
      · exact hk0 h0
      · exact hne hdropk

/-- Processing anchor-free noise followed by the sample text captures
exactly the two sample tokens and empties the buffer. -/
theorem pb_sample {nn : List Char} (hnn : firstOccur anchorL nn = none) :
    processBuffer (nn ++ sampleText) = ([tokA, tokB], []) := by
  have hfo : firstOccur anchorL (nn ++ sampleText) = some nn.length :=
    firstOccur_append_anchor hnn (by decide)
  have hdrop : ∀ m : Nat, (nn ++ sampleText).drop (nn.length + m) = sampleText.drop m := by
    intro m
    rw [← List.drop_drop, List.drop_left]
  have hps : patSearchFrom (nn ++ sampleText) (nn.length + anchorL.length) =
      some (nn.length + 11, nn.length + 17) := by
    unfold patSearchFrom
    rw [anchorL_length, hdrop 11]
    rw [show patSearch (sampleText.drop 11) = some (0, 6) from by decide]
    simp only [Option.map_some']
  rw [processBuffer_cap hfo hps]
  have e1 : nn.length + 17 - (nn.length + 11) = 6 := by omega
  rw [e1, hdrop 11, hdrop 17]
  rw [show processBuffer (sampleText.drop 17) = ([tokB], []) from by decide]
  rw [show stripHyphens ((sampleText.drop 11).take 6) = tokA from by decide]

/-- C1 (amended): starting from an empty buffer, feeding noise whose
normalization contains no anchor occurrence, followed by
`"ChannelName" + "A-가12-" + "ChannelName" + "B-나345-"`, split into `feed`
chunks at arbitrary offsets, captures exactly `A가12` then `B나345`. -/
theorem capture_correct_simple (noise : List Char) (chunks : List (List Char))
    (hsplit : chunks.flatten = noise ++ sampleText)
    (hnoise : firstOccur anchorL (normalize noise) = none) :
    (feedAll [] chunks).1 = [tokA, tokB] := by
  rw [feedAll_flatten, hsplit]
  simp only [feedRec, normalize_append, List.nil_append]
  rw [show normalize sampleText = sampleText from by decide]
  have hne : ¬ (normalize noise ++ sampleText = []) := by
    simp [show sampleText ≠ [] from by decide]
  rw [if_neg hne, pb_sample hnoise]

/-- C1 (counterexample to the claim as stated): for a noise prefix that
itself contains the anchor keyword followed by a value pattern, the
captured tokens are `C다99`, `A가12`, `B나345` — not the two claimed
tokens. -/
theorem capture_claim_counterexample :
    (feedAll [] [("ChannelNameC-다99-".toList ++ sampleText)]).1 =
        ["C다99".toList, tokA, tokB] ∧
      (feedAll [] [("ChannelNameC-다99-".toList ++ sampleText)]).1 ≠ [tokA, tokB] := by
  constructor
  · decide
  · decide

/-- Witness for `capture_correct_simple` at concrete noise `"xy-"` and a
three-way chunk split cutting through the anchor and through the value
pattern. -/
theorem capture_correct_simple_witness :
    (["xy-Chan".toList, "nelNameA-가1".toList, "2-ChannelNameB-나345-".toList].flatten
        = "xy-".toList ++ sampleText) ∧
      firstOccur anchorL (normalize "xy-".toList) = none ∧
      (feedAll []
        ["xy-Chan".toList, "nelNameA-가1".toList, "2-ChannelNameB-나345-".toList]).1 =
        [tokA, tokB] :=
  ⟨by decide, by decide,
    capture_correct_simple "xy-".toList
      ["xy-Chan".toList, "nelNameA-가1".toList, "2-ChannelNameB-나345-".toList]
      (by decide) (by decide)⟩

/-! ## Claim C2: bounded buffer under anchor-free streams -/

theorem leads_anchor_extend {pre suf : List Char} {j : Nat}
    (h : leads anchorL (pre.drop j) = true) : leads anchorL ((pre ++ suf).drop j) = true := by
  have hj : j ≤ pre.length := by
    have hl := leads_length h
    rw [List.length_drop, anchorL_length] at hl
    omega
  rw [List.drop_append_of_le_length hj]
  exact leads_append_right suf h

/-- C2: for any chunk sequence whose concatenated normalized text contains
no occurrence of the anchor keyword, after every `feed` call the recorder
buffer has length at most `len("ChannelName")`. -/
theorem bounded_buffer (chunks : List (List Char))
    (hfree : firstOccur anchorL (normalize chunks.flatten) = none) (k : Nat) :
    ((feedAll [] (chunks.take k)).2).length ≤ anchorL.length := by
  rw [feedAll_flatten]
  set pre := (chunks.take k).flatten with hpre
  have hsub : ∃ suf, chunks.flatten = pre ++ suf := by
    refine ⟨(chunks.drop k).flatten, ?_⟩
    rw [hpre, ← List.flatten_append, List.take_append_drop]
  obtain ⟨suf, hsuf⟩ := hsub
  have hprefree : firstOccur anchorL (normalize pre) = none := by
    apply firstOccur_eq_none
    intro j
    by_contra hc
    have hlead : leads anchorL ((normalize pre).drop j) = true := Bool.of_not_eq_false hc
    have : leads anchorL ((normalize pre ++ normalize suf).drop j) = true :=
      leads_anchor_extend hlead
    rw [← normalize_append, ← hsuf, firstOccur_none hfree j] at this
    cases this
  by_cases hp : normalize pre = []
  · simp [feedRec, hp]
  · simp only [feedRec, if_neg hp, List.nil_append]
    rw [processBuffer_none hprefree]
    simp only [List.length_drop]
    omega

/-- Witness for `bounded_buffer`: a concrete anchor-free stream fed in two
chunks. -/
theorem bounded_buffer_witness :
    firstOccur anchorL
        (normalize ["lots of noise without the keyword ".toList,
          "and even more noise Channel Nam".toList].flatten) = none ∧
      ((feedAll [] (["lots of noise without the keyword ".toList,
          "and even more noise Channel Nam".toList].take 2)).2).length ≤
        anchorL.length :=
  ⟨by decide,
    bounded_buffer
      ["lots of noise without the keyword ".toList,
        "and even more noise Channel Nam".toList] (by decide) 2⟩

/-! ## Claim C10: idempotent normalization -/

/-- C10: the text normalizer is idempotent: normalizing twice equals
normalizing once.  Kept characters are fixed by normalization and the
hyphen placeholder is itself replaced by a hyphen. -/
theorem normalize_idempotent (s : List Char) : normalize (normalize s) = normalize s := by
  unfold normalize
  rw [List.map_map]
  apply List.map_congr_left
  intro c _
  simp only [Function.comp]
  by_cases h : isKept c
  · rw [if_pos h, if_pos h]
  · rw [if_neg h, if_neg (by decide : ¬ isKept '-' = true)]

/-! ## Channel Registry / Deduplicator (`TestWindow.add_record`)

`TestWindow` keeps `channel_name_set` (a Python `set`) and `channel_names`
(an ordered display list).  `add_record` finds all non-overlapping
occurrences of `[A-Z][가-힣]\d{2,3}` in the content, filters out names
already in the set, then adds each new name to the set and appends it to
the list.  The set is modelled as an insertion-ordered duplicate-free
list.  `MakrApp._handle_captured_pattern` turns the result into the
`is_new` flag of a detection notification. -/

/-- `[A-Z][가-힣]\d\d` — the mandatory head of the test-window pattern. -/
def twPat4 (l : List Char) : Bool :=
  patAt l 0 isUpperAZ && patAt l 1 isHangul && patAt l 2 isDigit09 && patAt l 3 isDigit09

/-- Greedy match length of `[A-Z][가-힣]\d{2,3}` at the head: three digits
when available, else two. -/
def twMatchLen (l : List Char) : Option Nat :=
  if twPat4 l && patAt l 4 isDigit09 then some 5
  else if twPat4 l then some 4 else none

def twGo : Nat → List Char → List (List Char)
  | 0, _ => []
  | fuel + 1, l =>
    match l with
    | [] => []
    | c :: rest =>
      match twMatchLen (c :: rest) with
      | some n => (c :: rest).take n :: twGo fuel ((c :: rest).drop n)
      | none => twGo fuel rest

/-- `PATTERN_REGEX.findall(content)`: leftmost, non-overlapping matches.
Each recursive step consumes at least one character, so `content.length`
fuel always suffices. -/
def twFindall (content : List Char) : List (List Char) := twGo content.length content

/-- `set.add`: insert if absent (the set is an ordered duplicate-free list). -/
def setAdd (s : List (List Char)) (n : List Char) : List (List Char) :=
  if n ∈ s then s else s ++ [n]

structure Registry where
  channelNameSet : List (List Char)
  channelNames : List (List Char)
deriving DecidableEq

/-- One `for name in new_names` iteration of `TestWindow.add_record`. -/
def regStep (acc : Registry) (n : List Char) : Registry :=
  ⟨setAdd acc.channelNameSet n, acc.channelNames ++ [n]⟩

/-- `TestWindow.add_record`, modelled on the registry state (the treeview /
record-display side effects have no bearing on the registry).  Returns the
new state together with `(all_matches, new_matches)`. -/
def addRecord (st : Registry) (content : List Char) :
    Registry × List (List Char) × List (List Char) :=
  let found := twFindall content
  let newNames := found.filter (fun n => decide (n ∉ st.channelNameSet))
  if found = [] then (st, [], [])
  else if newNames = [] then (st, found, [])
  else (newNames.foldl regStep st, found, newNames)

/-- `MakrApp._handle_captured_pattern`: classify a capture content; the
notification flag is `some is_new` when a notification is sent (matches
nonempty), `none` otherwise. -/
def handleCaptured (st : Registry) (content : List Char) : Registry × Option Bool :=
  let r := addRecord st content
  (r.1, if r.2.1 = [] then none else some (!r.2.2.isEmpty))

def processAll (st : Registry) : List (List Char) → Registry
  | [] => st
  | c :: cs => processAll (addRecord st c).1 cs

theorem setAdd_mem {s : List (List Char)} {n m : List Char} :
    m ∈ setAdd s n ↔ m ∈ s ∨ m = n := by
  unfold setAdd
  split_ifs with h
  · constructor
    · exact fun hm => Or.inl hm
    · rintro (hm | rfl)
      · exact hm
      · exact h
  · simp

theorem setAdd_nodup {s : List (List Char)} {n : List Char} (h : s.Nodup) :
    (setAdd s n).Nodup := by
  unfold setAdd
  split_ifs with hm
  · exact h
  · simp [List.nodup_append, h, hm]

/-- Registry invariant: the set is duplicate-free, and the display list and
the set have the same members. -/
def RegInv (st : Registry) : Prop :=
  st.channelNameSet.Nodup ∧ ∀ n, n ∈ st.channelNames ↔ n ∈ st.channelNameSet

theorem regStep_inv {st : Registry} {n : List Char} (h : RegInv st) :
    RegInv (regStep st n) := by
  obtain ⟨h1, h2⟩ := h
  refine ⟨setAdd_nodup h1, ?_⟩
  intro m
  simp only [regStep, List.mem_append, List.mem_singleton, setAdd_mem, h2]

theorem foldl_regStep_inv {ns : List (List Char)} :
    ∀ {st : Registry}, RegInv st → RegInv (ns.foldl regStep st) := by
  induction ns with
  | nil => intro st h; exact h
  | cons n ns ih =>
    intro st h
    exact ih (regStep_inv h)

theorem addRecord_inv {st : Registry} (content : List Char) (h : RegInv st) :
    RegInv (addRecord st content).1 := by
  simp only [addRecord]
  split_ifs with h1 h2
  · exact h
  · exact h
  · exact foldl_regStep_inv h

theorem processAll_inv {contents : List (List Char)} :
    ∀ {st : Registry}, RegInv st → RegInv (processAll st contents) := by
  induction contents with
  | nil => intro st h; exact h
  | cons c cs ih =>
    intro st h
    exact ih (addRecord_inv c h)

/-- Folding fresh, duplicate-free names appends them to both components. -/
theorem foldl_regStep_fresh {ns : List (List Char)} :
    ∀ {st : Registry}, (∀ n ∈ ns, n ∉ st.channelNameSet) → ns.Nodup →
      ns.foldl regStep st =
        ⟨st.channelNameSet ++ ns, st.channelNames ++ ns⟩ := by
  induction ns with
  | nil => intro st _ _; simp
  | cons n ns ih =>
    intro st hfresh hnd
    have hn : n ∉ st.channelNameSet := hfresh n (by simp)
    have hstep : regStep st n = ⟨st.channelNameSet ++ [n], st.channelNames ++ [n]⟩ := by
      unfold regStep setAdd
      rw [if_neg hn]
    rw [List.foldl_cons, hstep,
      @ih ⟨st.channelNameSet ++ [n], st.channelNames ++ [n]⟩ ?fresh ?nodup]
    · simp
    case fresh =>
      intro m hm
      simp only [List.mem_append, List.mem_singleton]
      push_neg
      refine ⟨fun hc => hfresh m (by simp [hm]) hc, ?_⟩
      intro hc
      subst hc
      exact absurd hm (by simpa using (List.nodup_cons.1 hnd).1)
    case nodup => exact (List.nodup_cons.1 hnd).2

/-- C7 (counterexample to the claim as stated): a single capture content
containing the same fresh token twice appends it twice to the
`channel_names` display list. -/
theorem registry_dup_counterexample :
    (addRecord ⟨[], []⟩ "A가12A가12".toList).1.channelNames =
        ["A가12".toList, "A가12".toList] ∧
      ¬ ((addRecord ⟨[], []⟩ "A가12A가12".toList).1.channelNames).Nodup := by
  constructor
  · decide
  · decide

/-- C7 (amended): over any sequence of capture contents the membership set
never contains duplicates, unconditionally; and provided each single
content's match list is duplicate-free, the ordered `channel_names`
display list also contains at most one entry per token value. -/
theorem registry_at_most_once (contents : List (List Char)) :
    ((processAll ⟨[], []⟩ contents).channelNameSet).Nodup ∧
      ((∀ c ∈ contents, (twFindall c).Nodup) →
        ((processAll ⟨[], []⟩ contents).channelNames).Nodup) := by
  constructor
  · exact (processAll_inv ⟨List.nodup_nil, by simp⟩).1
  · intro h
    suffices hmain : ∀ st : Registry, RegInv st → st.channelNames.Nodup →
        RegInv (processAll st contents) ∧ (processAll st contents).channelNames.Nodup by
      exact (hmain ⟨[], []⟩ ⟨List.nodup_nil, by simp⟩ List.nodup_nil).2
    induction contents with
    | nil => intro st hinv hnd; exact ⟨hinv, hnd⟩
    | cons c cs ih =>
      intro st hinv hnd
      have hc : (twFindall c).Nodup := h c (by simp)
      have hcs : ∀ c' ∈ cs, (twFindall c').Nodup := fun c' hc' => h c' (by simp [hc'])
      have hstep : RegInv (addRecord st c).1 ∧ ((addRecord st c).1).channelNames.Nodup := by
        simp only [addRecord]
        split_ifs with h1 h2
        · exact ⟨hinv, hnd⟩
        · exact ⟨hinv, hnd⟩
        · set newNames := (twFindall c).filter (fun n => decide (n ∉ st.channelNameSet))
            with hnew
          have hfresh : ∀ n ∈ newNames, n ∉ st.channelNameSet := by
            intro n hn
            rw [hnew, List.mem_filter] at hn
            exact of_decide_eq_true hn.2
          have hnodupNew : newNames.Nodup := hc.filter _
          rw [foldl_regStep_fresh hfresh hnodupNew]
          refine ⟨⟨?_, ?_⟩, ?_⟩
          · simp only [List.nodup_append]
            exact ⟨hinv.1, hnodupNew, fun n hn hn2 => hfresh n hn2 hn⟩
          · intro n
            simp only [List.mem_append, hinv.2]
          · simp only [List.nodup_append]
            refine ⟨hnd, hnodupNew, fun n hn hn2 => ?_⟩
            exact hfresh n hn2 ((hinv.2 n).1 hn)
      have := ih hcs (addRecord st c).1 hstep.1 hstep.2
      exact this

/-- Witness for `registry_at_most_once`: the set conjunct evaluated on a
content with a duplicated token, the display-list conjunct on two contents
sharing a token. -/
theorem registry_at_most_once_witness :
    ((processAll ⟨[], []⟩ ["A가12A가12".toList]).channelNameSet).Nodup ∧
      ((∀ c ∈ ["A가12 B나345".toList, "A가12".toList], (twFindall c).Nodup) ∧
        ((processAll ⟨[], []⟩ ["A가12 B나345".toList, "A가12".toList]).channelNames).Nodup) :=
  ⟨(registry_at_most_once ["A가12A가12".toList]).1,
    by decide,
    (registry_at_most_once ["A가12 B나345".toList, "A가12".toList]).2 (by decide)⟩

/-- C6: classifying the same single-token content in two successive capture
events yields `is_new = true` then `is_new = false`; classifying two
distinct single-token contents yields `is_new = true` both times.  The
membership check and the insertion both happen inside the single
`addRecord` call. -/
theorem dedup_classification (t u : List Char)
    (ht : twFindall t = [t]) (hu : twFindall u = [u]) (hne : t ≠ u) :
    (handleCaptured ⟨[], []⟩ t).2 = some true ∧
      (handleCaptured (handleCaptured ⟨[], []⟩ t).1 t).2 = some false ∧
      (handleCaptured (handleCaptured ⟨[], []⟩ t).1 u).2 = some true := by
  have hstate : (handleCaptured ⟨[], []⟩ t).1 = ⟨[t], [t]⟩ := by
    simp [handleCaptured, addRecord, ht, regStep, setAdd]
  refine ⟨?_, ?_, ?_⟩
  · simp [handleCaptured, addRecord, ht]
  · rw [hstate]
    simp [handleCaptured, addRecord, ht]
  · rw [hstate]
    simp [handleCaptured, addRecord, hu, Ne.symm hne]

/-- Witness for `dedup_classification` with tokens `A가12` and `B나345`. -/
theorem dedup_classification_witness :
    (twFindall "A가12".toList = ["A가12".toList] ∧
        twFindall "B나345".toList = ["B나345".toList] ∧
        "A가12".toList ≠ "B나345".toList) ∧
      (handleCaptured ⟨[], []⟩ "A가12".toList).2 = some true ∧
        (handleCaptured (handleCaptured ⟨[], []⟩ "A가12".toList).1 "A가12".toList).2 =
          some false ∧
        (handleCaptured (handleCaptured ⟨[], []⟩ "A가12".toList).1 "B나345".toList).2 =
          some true :=
  ⟨⟨by decide, by decide, by decide⟩,
    dedup_classification "A가12".toList "B나345".toList (by decide) (by decide) (by decide)⟩

/-! ## `ChannelDetectionSequence`

The worker loop of `_run_sequence` is modelled as a deterministic function
of per-iteration environment scripts.  Timestamps and wall-clock readings
are rationals (seconds).  Environment actions (`notify_channel_found`,
`stop`) may interleave at the points where the worker is not holding the
interpreter: at the top of an iteration, during the marshaled reset call,
and inside blocking waits.  Marshaled calls may raise; the `try/finally`
of `_run_sequence` is modelled explicitly. -/

/-- A detection event: `(timestamp, is_new)`. -/
abbrev DetEvent := Rat × Bool

/-- Observable state of a `ChannelDetectionSequence`. -/
structure SeqSt where
  running : Bool
  queue : List DetEvent
  newlineMode : Bool
  lastDetectedAt : Option Rat
deriving DecidableEq

/-- External actions racing with the worker thread. -/
inductive EAct
  | notify (t : Rat) (isNew : Bool)
  | stop
deriving DecidableEq

/-- `notify_channel_found` (no-op unless running, else enqueue) and `stop`
(clear the flag, the queue and the last-detection time). -/
def applyEAct (st : SeqSt) : EAct → SeqSt
  | .notify t isNew =>
    if st.running then ⟨st.running, st.queue ++ [(t, isNew)], st.newlineMode, st.lastDetectedAt⟩
    else st
  | .stop => ⟨false, [], st.newlineMode, none⟩

def applyEActs (st : SeqSt) (acts : List EAct) : SeqSt := acts.foldl applyEAct st

/-- `ChannelDetectionSequence.start`: returns the new state, whether a
worker thread was spawned, and whether the "already running" notice was
shown. -/
def startSeq (st : SeqSt) (newlineMode : Bool) : SeqSt × Bool × Bool :=
  if st.running then (st, false, true)
  else (⟨true, [], newlineMode, none⟩, true, false)

/-- Worker-side trace entries: marshaled actions, received events, and the
deadline used when entering the rolling-watch phase. -/
inductive WAct
  | reset
  | close
  | got (t : Rat) (isNew : Bool)
  | watchEnter (deadline : Rat)
  | statusUpd
deriving DecidableEq

/-- Script for one blocking `_wait_for_detection` call that finds the queue
empty: either the wait times out (or observes `stop`), or an event becomes
available after some environment actions. -/
inductive WaitScript
  | thenTimeout (acts : List EAct)
  | thenEvent (acts : List EAct)
deriving DecidableEq

/-- `_delay_seconds`: `max(delay_ms, 0) / 1000`. -/
def delaySec (ms : Int) : Rat := (max ms 0 : Int) / 1000

/-- The two timing accessors injected into the sequence. -/
structure SeqCfg where
  timeoutMs : Int
  watchMs : Int
deriving DecidableEq

/-- `_wait_for_detection`: with a non-positive timeout, `get_nowait`;
otherwise, while running, a queued event is returned at once (FIFO head),
and on an empty queue the wait script decides what happens during the
block.  A wait can time out even when an event arrived just after its last
`get` attempt, which is why `thenTimeout` may carry `notify` actions. -/
def waitFor (st : SeqSt) (timeoutSec : Rat) (ws : WaitScript) : SeqSt × Option DetEvent :=
  if timeoutSec ≤ 0 then
    match st.queue with
    | e :: rest => (⟨st.running, rest, st.newlineMode, st.lastDetectedAt⟩, some e)
    | [] => (st, none)
  else if st.running then
    match st.queue with
    | e :: rest => (⟨st.running, rest, st.newlineMode, st.lastDetectedAt⟩, some e)
    | [] =>
      match ws with
      | .thenTimeout acts => (applyEActs st acts, none)
      | .thenEvent acts =>
        let st2 := applyEActs st acts
        if st2.running then
          match st2.queue with
          | e :: rest => (⟨st2.running, rest, st2.newlineMode, st2.lastDetectedAt⟩, some e)
          | [] => (st2, none)
        else (st2, none)
  else (st, none)

/-- Script for one pass of the rolling-watch inner loop. -/
structure InnerPass where
  now : Rat
  preActs : List EAct
  wait : WaitScript
deriving DecidableEq

/-- The rolling-watch inner loop (`while self.running` over a moving
deadline): returns the final state, whether a new channel was found, and
the events received. -/
def innerLoop (wi : Rat) : SeqSt → Rat → List InnerPass → SeqSt × Bool × List WAct
  | st, _, [] => (st, false, [])
  | st, deadline, p :: ps =>
    let st1 := applyEActs st p.preActs
    if st1.running then
      if deadline - p.now ≤ 0 then (st1, false, [])
      else
        let r := waitFor st1 (deadline - p.now) p.wait
        if r.1.running then
          match r.2 with
          | none => (r.1, false, [])
          | some (dt, isNew) =>
            let st2 : SeqSt := ⟨r.1.running, r.1.queue, r.1.newlineMode, some dt⟩
            if isNew then (st2, true, [.got dt isNew])
            else
              let rest := innerLoop wi st2 (dt + wi) ps
              (rest.1, rest.2.1, .got dt isNew :: rest.2.2)
        else (r.1, false, [])
    else (st1, false, [])

/-- Script for one outer iteration of the worker loop. -/
structure IterScript where
  topActs : List EAct
  resetRaises : Bool
  duringReset : List EAct
  wait1 : WaitScript
  closeRaises : Bool
  innerPasses : List InnerPass
deriving DecidableEq

/-- The `finally` block of `_run_sequence`: set `running := False`, then
marshal `_update_status`.  Reached on every exit, including exceptions. -/
def finishRun (st : SeqSt) (tr : List WAct) : Option SeqSt × List WAct :=
  (some ⟨false, st.queue, st.newlineMode, st.lastDetectedAt⟩, tr ++ [.statusUpd])

/-- `_run_sequence`, driven by per-iteration scripts.  The first component
is `some` final state when the worker exited (through the `finally`), and
`none` when the supplied script ran out with the loop still live. -/
def runSeq (cfg : SeqCfg) : SeqSt → List IterScript → List WAct → Option SeqSt × List WAct
  | _, [], tr => (none, tr)
  | st, is :: rest, tr =>
    let st1 := applyEActs st is.topActs
    if st1.running then
      let st2 : SeqSt := ⟨st1.running, [], st1.newlineMode, st1.lastDetectedAt⟩
      if is.resetRaises then finishRun st2 tr
      else
        let tr1 := tr ++ [.reset]
        let st3 := applyEActs st2 is.duringReset
        let r1 := waitFor st3 (delaySec cfg.timeoutMs) is.wait1
        let st4 : SeqSt := ⟨r1.1.running, r1.1.queue, r1.1.newlineMode, r1.2.map Prod.fst⟩
        let tr2 := tr1 ++ (match r1.2 with
          | some (t, isNew) => [.got t isNew]
          | none => [])
        if st4.running then
          match r1.2 with
          | none => runSeq cfg st4 rest tr2
          | some (t, isNew) =>
            if isNew then
              if is.closeRaises then finishRun st4 tr2
              else finishRun st4 (tr2 ++ [.close])
            else
              if delaySec cfg.watchMs ≤ 0 then runSeq cfg st4 rest tr2
              else
                let deadline := t + delaySec cfg.watchMs
                let tr3 := tr2 ++ [.watchEnter deadline]
                let r2 := innerLoop (delaySec cfg.watchMs) st4 deadline is.innerPasses
                let tr4 := tr3 ++ r2.2.2
                if r2.1.running then
                  if r2.2.1 then
                    if is.closeRaises then finishRun r2.1 tr4
                    else finishRun r2.1 (tr4 ++ [.close])
                  else runSeq cfg r2.1 rest tr4
                else finishRun r2.1 tr4
        else finishRun st4 tr2
    else finishRun st1 tr

theorem finishRun_running {st : SeqSt} {tr tr' : List WAct} {stF : SeqSt}
    (h : finishRun st tr = (some stF, tr')) : stF.running = false := by
  unfold finishRun at h
  have := congrArg Prod.fst h
  simp only at this
  cases this
  rfl

/-- C5: on every exit path of the worker loop — natural success, stop
request, or an exception in a marshaled call — the `finally` block has set
`running` to `false` before the worker terminates. -/
theorem running_cleared_on_exit (cfg : SeqCfg) (scripts : List IterScript) :
    ∀ (st : SeqSt) (tr tr' : List WAct) (stF : SeqSt),
      runSeq cfg st scripts tr = (some stF, tr') → stF.running = false := by
  induction scripts with
  | nil =>
    intro st tr tr' stF h
    simp only [runSeq] at h
    cases h
  | cons is rest ih =>
    intro st tr tr' stF h
    simp only [runSeq] at h
    repeat' split at h
    all_goals
      first
        | exact finishRun_running h
        | exact ih _ _ _ _ h

/-- Witness for `running_cleared_on_exit`: a stop observed at the top of
the first iteration exits through the `finally` with `running = false`. -/
theorem running_cleared_on_exit_witness :
    runSeq ⟨1000, 1000⟩ ⟨false, [], false, none⟩
        [⟨[], false, [], .thenTimeout [], false, []⟩] [] =
        (some ⟨false, [], false, none⟩, [.statusUpd]) ∧
      (⟨false, [], false, none⟩ : SeqSt).running = false :=
  ⟨rfl,
    running_cleared_on_exit ⟨1000, 1000⟩ [⟨[], false, [], .thenTimeout [], false, []⟩]
      ⟨false, [], false, none⟩ [] [.statusUpd] ⟨false, [], false, none⟩ rfl⟩

theorem delaySec_pos {ms : Int} (h : 0 < ms) : 0 < delaySec ms := by
  unfold delaySec
  rw [max_eq_left h.le]
  exact div_pos (by exact_mod_cast h) (by norm_num)

/-- C3: with a positive watch interval, after the reset action the first
event `(t, is_new = false)` puts the worker into the rolling-watch phase
with initial deadline `t + channel_watch_interval`; when the interval
elapses with no further event, the worker does not run the closing action
but loops back and runs the reset action again. -/
theorem watch_interval_restart (cfg : SeqCfg) (t : Rat) (nm : Bool)
    (hw : 0 < cfg.watchMs) :
    runSeq cfg ⟨true, [], nm, none⟩
      [⟨[], false, [.notify t false], .thenTimeout [], false, [⟨t, [], .thenTimeout []⟩]⟩,
        ⟨[], false, [], .thenTimeout [], false, []⟩] [] =
      (none, [.reset, .got t false, .watchEnter (t + delaySec cfg.watchMs), .reset]) := by
  have hws : ¬ (delaySec cfg.watchMs ≤ 0) := not_le.2 (delaySec_pos hw)
  have hsub : ∀ x : Rat, t + x - t = x := fun x => by ring
  by_cases hto : delaySec cfg.timeoutMs ≤ 0 <;>
    simp [runSeq, applyEActs, applyEAct, waitFor, innerLoop, finishRun, hto, hws, hsub]

/-- Witness for `watch_interval_restart` at concrete timing configuration. -/
theorem watch_interval_restart_witness :
    (0 : Int) < 1000 ∧
      runSeq ⟨500, 1000⟩ ⟨true, [], false, none⟩
        [⟨[], false, [.notify 2 false], .thenTimeout [], false, [⟨2, [], .thenTimeout []⟩]⟩,
          ⟨[], false, [], .thenTimeout [], false, []⟩] [] =
        (none, [.reset, .got 2 false, .watchEnter (2 + delaySec 1000), .reset]) :=
  ⟨by decide, watch_interval_restart ⟨500, 1000⟩ 2 false (by decide)⟩

/-- C4 (counterexample to the claim as stated): the event `(5, is_new =
true)` is enqueued by `notify_channel_found` while the sequence is running,
between one iteration's timeout expiry and the next iteration's wait; the
next iteration's `_clear_queue()` discards it, so it is never received
(the trace contains no `got` and no closing action). -/
theorem queue_retention_counterexample :
    (applyEActs ⟨true, [], false, none⟩ [.notify 5 true]).queue = [(5, true)] ∧
      runSeq ⟨1000, 1000⟩ ⟨true, [], false, none⟩
        [⟨[], false, [], .thenTimeout [], false, []⟩,
          ⟨[.notify 5 true], false, [], .thenTimeout [], false, []⟩] [] =
        (none, [.reset, .reset]) := by
  constructor
  · rfl
  · have hto : ¬ (delaySec 1000 ≤ 0) := not_le.2 (delaySec_pos (by decide))
    simp [runSeq, applyEActs, applyEAct, waitFor, finishRun, hto]

/-- C4 (amended): an event enqueued via `notify_channel_found` after the
current iteration's queue-clear — here while the worker is blocked
marshaling the reset action — is retained in the queue and received by
that iteration's first wait. -/
theorem queue_retention_after_clear (cfg : SeqCfg) (t : Rat) (b nm : Bool)
    (ws : WaitScript) :
    WAct.got t b ∈
      (runSeq cfg ⟨true, [], nm, none⟩
        [⟨[], false, [.notify t b], ws, false, []⟩] []).2 := by
  by_cases hto : delaySec cfg.timeoutMs ≤ 0 <;>
    by_cases hwa : delaySec cfg.watchMs ≤ 0 <;>
      cases b <;>
        simp [runSeq, applyEActs, applyEAct, waitFor, innerLoop, finishRun, hto, hwa]

/-- C9: calling `start` on an already-running sequence shows the notice
and is otherwise a no-op: no worker is spawned and `running`, the queue,
`newline_mode` and `last_detected_at` are all left unchanged. -/
theorem start_when_running (st : SeqSt) (nm : Bool) (h : st.running = true) :
    startSeq st nm = (st, false, true) := by
  unfold startSeq
  rw [if_pos h]

/-- Witness for `start_when_running` on a concrete running state. -/
theorem start_when_running_witness :
    (⟨true, [(3, false)], true, some 3⟩ : SeqSt).running = true ∧
      startSeq ⟨true, [(3, false)], true, some 3⟩ false =
        (⟨true, [(3, false)], true, some 3⟩, false, true) :=
  ⟨rfl, start_when_running ⟨true, [(3, false)], true, some 3⟩ false rfl⟩

/-! ## `MacroController` (UI1 step sequencer)

`run_step` executes step 1 (click `pos1`, delay, click `pos2`) or step 2
and flips `current_step`; coordinate lookups go through
`EntryCoordinateProvider.get_point`, which returns `None` silently for a
missing key and shows a field-specific error dialog (and returns `None`)
when an entry does not parse as an integer.  Input actuation, sleeps,
dialogs and the status label are modelled as an effect list. -/

inductive MEff
  | click (x y : Int)
  | press (key : String)
  | sleepMs (ms : Int)
  | errorMsg (label : String)
  | statusStep (step : Nat)
deriving DecidableEq

/-- A coordinate row's two entry widgets, as the parse results of
`int(x_entry.get())` / `int(y_entry.get())` (`none` = `ValueError`). -/
structure EntryPair where
  x : Option Int
  y : Option Int
deriving DecidableEq

/-- `EntryCoordinateProvider.get_point`. -/
def getPoint (entries : String → Option EntryPair) (labelMap : String → String)
    (key : String) : Option (Int × Int) × List MEff :=
  match entries key with
  | none => (none, [])
  | some p =>
    match p.x, p.y with
    | some xv, some yv => (some (xv, yv), [])
    | _, _ => (none, [.errorMsg (labelMap key)])

/-- `DelayConfig`: the timing accessors used by the controller. -/
structure DelayCfg where
  f2BeforeEsc : Int
  f2BeforePos1 : Int
  f2BeforePos2 : Int
  f1BeforePos3 : Int
  f1BeforeEnter : Int
  f1NewlineBeforePos4 : Int
  f1NewlineBeforePos3 : Int
  f1NewlineBeforeEnter : Int
  f1RepeatCount : Int
deriving DecidableEq

/-- `_sleep_ms`: sleeps only when `max(ms, 0)/1000` is nonzero. -/
def sleepEffs (ms : Int) : List MEff := if 0 < ms then [.sleepMs ms] else []

/-- `MacroController._run_step_one`: look up both coordinates (each failed
parse reports its own error), abort without clicking if either is missing,
otherwise click `pos1`, delay, click `pos2`. -/
def runStepOne (entries : String → Option EntryPair) (labelMap : String → String)
    (d : DelayCfg) : List MEff :=
  let p1 := getPoint entries labelMap "pos1"
  let p2 := getPoint entries labelMap "pos2"
  match p1.1, p2.1 with
  | some q1, some q2 =>
    p1.2 ++ p2.2 ++ sleepEffs d.f2BeforePos1 ++ [.click q1.1 q1.2] ++
      sleepEffs d.f2BeforePos2 ++ [.click q2.1 q2.2]
  | _, _ => p1.2 ++ p2.2

/-- `MacroController._run_step_two`: click `pos3` (and `pos4` in newline
mode) and press Enter, repeated `max(f1_repeat_count, 1)` times. -/
def runStepTwo (entries : String → Option EntryPair) (labelMap : String → String)
    (d : DelayCfg) (newlineMode : Bool) : List MEff :=
  let p3 := getPoint entries labelMap "pos3"
  match p3.1 with
  | none => p3.2
  | some q3 =>
    if newlineMode then
      let p4 := getPoint entries labelMap "pos4"
      match p4.1 with
      | none => p3.2 ++ p4.2
      | some q4 =>
        p3.2 ++ p4.2 ++
          (List.replicate (max d.f1RepeatCount 1).toNat
            (sleepEffs d.f1NewlineBeforePos4 ++ [.click q4.1 q4.2] ++
              sleepEffs d.f1NewlineBeforePos3 ++ [.click q3.1 q3.2] ++
              sleepEffs d.f1NewlineBeforeEnter ++ [.press "enter"])).flatten
    else
      p3.2 ++
        (List.replicate (max d.f1RepeatCount 1).toNat
          (sleepEffs d.f1BeforePos3 ++ [.click q3.1 q3.2] ++
            sleepEffs d.f1BeforeEnter ++ [.press "enter"])).flatten

structure McState where
  currentStep : Nat
deriving DecidableEq

/-- `MacroController.run_step`: execute the current step, flip
`current_step`, refresh the status label. -/
def runStep (entries : String → Option EntryPair) (labelMap : String → String)
    (d : DelayCfg) (newlineMode : Bool) (st : McState) : McState × List MEff :=
  if st.currentStep = 1 then
    (⟨2⟩, runStepOne entries labelMap d ++ [.statusStep 2])
  else
    (⟨1⟩, runStepTwo entries labelMap d newlineMode ++ [.statusStep 1])

theorem getPoint_no_click (entries : String → Option EntryPair)
    (labelMap : String → String) (k : String) (x y : Int) :
    MEff.click x y ∉ (getPoint entries labelMap k).2 := by
  unfold getPoint
  cases he : entries k with
  | none => simp
  | some p =>
    cases hx : p.x <;> cases hy : p.y <;> simp [hx, hy]

/-- Concrete entry table for the counterexample: `pos1`'s x field does not
parse as an integer; the other rows are fine. -/
def badEntries : String → Option EntryPair := fun k =>
  if k = "pos1" then some ⟨none, some 5⟩
  else if k = "pos2" then some ⟨some 7, some 8⟩
  else if k = "pos3" then some ⟨some 1, some 2⟩
  else none

def zeroDelays : DelayCfg := ⟨0, 0, 0, 0, 0, 0, 0, 0, 0⟩

/-- C8 (counterexample to the claim as stated): with a non-integer `pos1`
field, step 1 reports the field error and issues no click, but
`current_step` is not left unchanged — `run_step` still advances it to 2
and refreshes the status display. -/
theorem step_one_state_counterexample :
    (runStep badEntries (fun k => k) zeroDelays false ⟨1⟩).1.currentStep = 2 ∧
      (runStep badEntries (fun k => k) zeroDelays false ⟨1⟩).2 =
        [.errorMsg "pos1", .statusStep 2] := by
  constructor
  · decide
  · decide

/-- C8 (amended): when either coordinate lookup of step 1 fails, no click
is issued (the only effects are the error reports and the status refresh),
but the controller still advances `current_step` to 2. -/
theorem step_one_abort_no_click (entries : String → Option EntryPair)
    (labelMap : String → String) (d : DelayCfg) (nm : Bool)
    (h : (getPoint entries labelMap "pos1").1 = none ∨
      (getPoint entries labelMap "pos2").1 = none) :
    (runStep entries labelMap d nm ⟨1⟩).1 = ⟨2⟩ ∧
      ∀ x y, MEff.click x y ∉ (runStep entries labelMap d nm ⟨1⟩).2 := by
  constructor
  · simp [runStep]
  · intro x y
    have n1 := getPoint_no_click entries labelMap "pos1" x y
    have n2 := getPoint_no_click entries labelMap "pos2" x y
    have hrs : runStep entries labelMap d nm ⟨1⟩ =
        (⟨2⟩, runStepOne entries labelMap d ++ [.statusStep 2]) := rfl
    rw [hrs]
    simp only [runStepOne]
    rcases h with h1 | h2
    · rw [h1]
      simp [List.mem_append, n1, n2]
    · rw [h2]
      cases hx : (getPoint entries labelMap "pos1").1 <;>
        simp [hx, List.mem_append, n1, n2]

/-- Witness for `step_one_abort_no_click` on the concrete failing table. -/
theorem step_one_abort_no_click_witness :
    ((getPoint badEntries (fun k => k) "pos1").1 = none ∨
        (getPoint badEntries (fun k => k) "pos2").1 = none) ∧
      ((runStep badEntries (fun k => k) zeroDelays false ⟨1⟩).1 = ⟨2⟩ ∧
        ∀ x y, MEff.click x y ∉ (runStep badEntries (fun k => k) zeroDelays false ⟨1⟩).2) :=
  ⟨Or.inl (by decide),
    step_one_abort_no_click badEntries (fun k => k) zeroDelays false (Or.inl (by decide))⟩

end Makr
